import Mathlib

/-!
Verification of the smgrep indexing and retrieval pipeline.

This file shallowly embeds the core of the smgrep daemon: the chunker
(`src/chunker/mod.rs`), the grammar manager (`src/grammar/mod.rs`), the
daemon request handling (`src/commands/serve.rs`), and the search engine
(`src/search/mod.rs`), and proves or refutes the specification claims about
them.

Modelling conventions:
* Rust strings are modelled as `List Char`; `str::len` is the element count
  (for the ASCII inputs used in all concrete evaluations this coincides with
  the byte length, and `floor_char_boundary` is the identity clipped to the
  length, since every position of a `List Char` is a character boundary).
* Rust's `str::lines` is modelled by splitting on `'\n'` and dropping a
  final empty segment, which matches `lines()` item counts and byte ranges.
* Loops that advance by a stride are written with an explicit fuel argument
  (structural recursion) so that every definition computes by kernel
  reduction; the fuel supplied at each call site strictly exceeds the
  number of iterations the Rust loop can perform.
* Code of the repository that is not under `src/` (the `types`, `meta`,
  `store`, `ipc` and `search/ranking` modules) is modelled from the spec;
  each such definition is marked `Modelled from the spec:` in its doc
  comment.
-/

/-- Rust `String`/`&str`, modelled as a list of characters. -/
abbrev Str := List Char

/-- Number of `'\n'` characters in a string (`memchr_iter(b'\n', ..)` hits). -/
def countNl (s : Str) : Nat := s.count '\n'

/-- Split a string at every `'\n'`, keeping empty segments; the result is
always non-empty. This is the primitive underlying the `str::lines` model. -/
def splitNl : Str → List Str
  | [] => [[]]
  | c :: rest =>
    if c = '\n' then [] :: splitNl rest
    else
      match splitNl rest with
      | [] => [[c]]
      | seg :: segs => (c :: seg) :: segs

/-- Rust `str::lines()` collected to a list: split on `'\n'`, dropping the
final empty segment produced by a trailing newline, and yielding no lines at
all for the empty string. -/
def rustLines (s : Str) : List Str :=
  if s = [] then []
  else if (splitNl s).getLast? = some [] then (splitNl s).dropLast else splitNl s

/-- Rust `content.lines().count()`. -/
def linesCount (s : Str) : Nat := (rustLines s).length

/-- Join segments with `'\n'`: the inverse of `splitNl`. -/
def joinNl : List Str → Str
  | [] => []
  | [seg] => seg
  | seg :: rest => seg ++ '\n' :: joinNl rest

/-- The byte offset of the start of line `j` in the joined form of `segs`:
the sum of `length + 1` over the first `j` segments (each segment is
followed by one newline). -/
def relOff (segs : List Str) (j : Nat) : Nat :=
  ((segs.take j).map fun seg => seg.length + 1).sum

/-- Rust `str::trim_start`. -/
def trimStart (s : Str) : Str := s.dropWhile Char.isWhitespace

/-- Rust `str::trim_end`. -/
def trimEnd (s : Str) : Str := (s.reverse.dropWhile Char.isWhitespace).reverse

/-- Rust `str::trim`. -/
def trim (s : Str) : Str := trimEnd (trimStart s)

/-- Rust `Str::slice(a..b)`: the substring at byte range `[a, b)`. -/
def sliceStr (s : Str) (a b : Nat) : Str := (s.drop a).take (b - a)

/-- Modelled from the spec: `ChunkType` (the `types` module is not under
`src/`); §3 of the spec lists the closed sum
`Function | Class | Interface | TypeAlias | Block | Other`. -/
inductive ChunkType
  | Function
  | Class
  | Interface
  | TypeAlias
  | Block
  | Other
deriving DecidableEq

/-- The in-memory chunk record (spec §3); `chunk_type` is carried as an
`Option` exactly as the chunker code consumes it
(`chunk.chunk_type != Some(ChunkType::Block)`,
`chunk.chunk_type.unwrap_or(ChunkType::Other)`). -/
structure Chunk where
  content : Str
  start_line : Nat
  end_line : Nat
  chunk_type : Option ChunkType
  context : List Str
  is_anchor : Bool
deriving DecidableEq

/-- Modelled from the spec: `Chunk::new` (the `types` module is not under
`src/`): a freshly built chunk with the given content, line range, type and
context stack; chunks built by the chunker are not anchor chunks. -/
def Chunk.new (content : Str) (startLine endLine : Nat) (ty : ChunkType)
    (stack : List Str) : Chunk :=
  ⟨content, startLine, endLine, some ty, stack, false⟩

namespace Chunker

/-- `src/chunker/mod.rs:16`. -/
def MAX_LINES : Nat := 75

/-- `src/chunker/mod.rs:17`. -/
def MAX_CHARS : Nat := 2000

/-- `src/chunker/mod.rs:18`. -/
def OVERLAP_LINES : Nat := 10

/-- `src/chunker/mod.rs:21`. -/
def STRIDE_LINES : Nat := MAX_LINES - OVERLAP_LINES

/-- The loop body of `Chunker::line_range_to_byte_range`
(`src/chunker/mod.rs:34-56`): walk the newline positions, recording
`start_byte = idx + 1` when `current_line` reaches `start_line` and stopping
with `end_byte = idx` when it reaches `end_line`. -/
def lineRangeAux (startLine endLine totalLen : Nat) :
    Str → Nat → Nat → Nat → Nat × Nat
  | [], _, _, startByte => (startByte, totalLen)
  | c :: rest, idx, currentLine, startByte =>
    if c = '\n' then
      if currentLine + 1 = endLine then (startByte, idx)
      else
        lineRangeAux startLine endLine totalLen rest (idx + 1) (currentLine + 1)
          (if currentLine + 1 = startLine then idx + 1 else startByte)
    else lineRangeAux startLine endLine totalLen rest (idx + 1) currentLine startByte

/-- `Chunker::line_range_to_byte_range` (`src/chunker/mod.rs:34-56`). -/
def line_range_to_byte_range (content : Str) (startLine endLine : Nat) : Nat × Nat :=
  lineRangeAux startLine endLine content.length content 0 0 0

/-- The common character-window loop of `Chunker::split_content_by_chars`
(`src/chunker/mod.rs:398-431`) and `Chunker::split_by_chars`
(`src/chunker/mod.rs:433-464`): repeatedly trim leading whitespace, cut
`MAX_CHARS` characters at a char boundary, trim trailing whitespace, and
emit the piece as a chunk of type `ty`, advancing the line counter by the
piece's line count. The two Rust functions differ only in the chunk type and
context they pass. `fuel` strictly exceeds the number of iterations (each
iteration consumes at least one character of `iter`). -/
def charSplitGo (ty : ChunkType) (context : List Str) :
    Nat → Str → Nat → List Chunk
  | 0, _, _ => []
  | fuel + 1, iter, ln =>
    let it := trimStart iter
    if it = [] then []
    else
      let lim := min MAX_CHARS it.length
      let pre := it.take lim
      let post := it.drop lim
      let c := trimEnd pre
      if c = [] then charSplitGo ty context fuel post ln
      else
        Chunk.new c ln (ln + linesCount c) ty context ::
          charSplitGo ty context fuel post (ln + linesCount c)

/-- `Chunker::split_content_by_chars` (`src/chunker/mod.rs:398-431`). -/
def split_content_by_chars (input : Str) (startLine : Nat) (context : List Str) :
    List Chunk :=
  charSplitGo ChunkType.Block context (input.length + 1) input startLine

/-- `Chunker::split_by_chars` (`src/chunker/mod.rs:433-464`). -/
def split_by_chars (chunk : Chunk) : List Chunk :=
  charSplitGo (chunk.chunk_type.getD ChunkType.Other) chunk.context
    (chunk.content.length + 1) chunk.content chunk.start_line

/-- The `File: {path}` context crumb. -/
def fileCrumb (path : Str) : Str := ("File: ").data ++ path

/-- The sliding-window loop of `Chunker::simple_chunk`
(`src/chunker/mod.rs:58-87`): window `lines[i..min(i+MAX_LINES, len)]`,
materialised through `line_range_to_byte_range`, emitted directly when it
fits in `MAX_CHARS` characters and split by `split_content_by_chars`
otherwise; `i` advances by `stride = max (MAX_LINES - OVERLAP_LINES) 1`.
`numLines` is `lines.len()`; `fuel` strictly exceeds the iteration count. -/
def simpleChunkGo (content : Str) (numLines : Nat) (context : List Str) :
    Nat → Nat → List Chunk
  | 0, _ => []
  | fuel + 1, i =>
    if i < numLines then
      let e := min (i + MAX_LINES) numLines
      let br := line_range_to_byte_range content i e
      let subContent := sliceStr content br.1 br.2
      (if subContent.length ≤ MAX_CHARS then
          [Chunk.new subContent i e ChunkType.Block context]
        else split_content_by_chars subContent i context) ++
        simpleChunkGo content numLines context fuel (i + max (MAX_LINES - OVERLAP_LINES) 1)
    else []

/-- `Chunker::simple_chunk` (`src/chunker/mod.rs:58-87`). -/
def simple_chunk (content : Str) (path : Str) : List Chunk :=
  simpleChunkGo content (rustLines content).length [fileCrumb path]
    ((rustLines content).length + 1) 0

/-- `Chunker::extract_header_line` (`src/chunker/mod.rs:466-474`): the first
line whose trimmed text is non-empty. -/
def extract_header_line (text : Str) : Option Str :=
  (rustLines text).findSome? fun line =>
    if trim line = [] then none else some (trim line)

/-- The line-window loop of `Chunker::split_if_too_big`
(`src/chunker/mod.rs:351-384`): windows of `MAX_LINES` lines with stride
`max (MAX_LINES - OVERLAP_LINES) 1`; a non-head window shorter than 3 lines
is skipped; a non-head window of a non-`Block` chunk is prefixed with the
header line. `numLines` is `lines.len()`; `fuel` strictly exceeds the
iteration count. -/
def sitgGo (chunk : Chunk) (numLines : Nat) (header : Option Str) :
    Nat → Nat → List Chunk
  | 0, _ => []
  | fuel + 1, i =>
    if i < numLines then
      let stride := max (MAX_LINES - OVERLAP_LINES) 1
      let e := min (i + MAX_LINES) numLines
      if e - i < 3 ∧ 0 < i then sitgGo chunk numLines header fuel (i + stride)
      else
        let br := line_range_to_byte_range chunk.content i e
        let base := sliceStr chunk.content br.1 br.2
        let subContent :=
          match header with
          | some h =>
            if 0 < i ∧ chunk.chunk_type ≠ some ChunkType.Block then h ++ '\n' :: base
            else base
          | none => base
        Chunk.new subContent (chunk.start_line + i) (chunk.start_line + e)
            (chunk.chunk_type.getD ChunkType.Other) chunk.context ::
          sitgGo chunk numLines header fuel (i + stride)
    else []

/-- `Chunker::split_if_too_big` (`src/chunker/mod.rs:338-396`): a chunk
within both bounds is returned unchanged; a chunk over only the character
bound is split by characters; otherwise it is split by line windows, and any
resulting sub-chunk still over `MAX_CHARS` is split by characters. -/
def split_if_too_big (chunk : Chunk) : List Chunk :=
  let charCount := chunk.content.length
  let lineCount := linesCount chunk.content
  if lineCount ≤ MAX_LINES ∧ charCount ≤ MAX_CHARS then [chunk]
  else if MAX_CHARS < charCount ∧ lineCount ≤ MAX_LINES then split_by_chars chunk
  else
    (sitgGo chunk lineCount (extract_header_line chunk.content) (lineCount + 1) 0).flatMap
      fun sc => if MAX_CHARS < sc.content.length then split_by_chars sc else [sc]

/-- The ordering key used by `chunk_with_tree_sitter`
(`src/chunker/mod.rs:171-175`): ascending `start_line`, ties by `end_line`. -/
def chunkLe (a b : Chunk) : Prop :=
  a.start_line < b.start_line ∨ (a.start_line = b.start_line ∧ a.end_line ≤ b.end_line)

instance : DecidableRel chunkLe := fun a b => by
  unfold chunkLe; infer_instance

/-- The `combined.sort_by` step of `Chunker::chunk_with_tree_sitter`
(`src/chunker/mod.rs:169-175`): the gap/tail block chunks are prepended to
the definition chunks and the result is stably sorted by
`(start_line, end_line)`. -/
def chunk_with_tree_sitter_order (block_chunks chunks : List Chunk) : List Chunk :=
  (block_chunks ++ chunks).insertionSort chunkLe

/-- `Chunker::chunk` (`src/chunker/mod.rs:476-489`). The tree-sitter parse
(`chunk_with_tree_sitter`, which depends on downloaded WASM grammars and the
external tree-sitter runtime) is abstracted as `parsed`: `none` when no
grammar is available for the path (the fallback `simple_chunk` is then
used), `some cs` when syntax mode ran and produced the chunk list `cs`
(possibly empty — `Ok(Some(Vec::new()))` when no definition was seen,
`src/chunker/mod.rs:165-167`). Every raw chunk then passes through
`split_if_too_big`. -/
def chunk (parsed : Option (List Chunk)) (content : Str) (path : Str) : List Chunk :=
  (parsed.getD (simple_chunk content path)).flatMap split_if_too_big

end Chunker

/-! ## Concrete inputs used in counterexamples and witnesses -/

/-- A file path used across the concrete examples. -/
def examplePath : Str := ("a.py").data

/-- A 140-line file holding one 140-line definition: each line is `a`. -/
def bigContent : Str := joinNl (List.replicate 140 ['a'])

/-- The syntax-mode chunk for the single 140-line definition in
`bigContent`: rows 0–139, classified `Other` (a function definition).
`chunk_with_tree_sitter` emits exactly this chunk for such a file. -/
def bigDefChunk : Chunk :=
  Chunk.new bigContent 0 139 ChunkType.Other [Chunker.fileCrumb examplePath]

/-- A 201-line file: a 201-line class whose body holds a 70-line method at
rows 5–74; each line is `a`. -/
def nestedContent : Str := joinNl (List.replicate 201 ['a'])

/-- The syntax-mode chunk for the whole 201-line class in `nestedContent`. -/
def classChunk : Chunk :=
  Chunk.new nestedContent 0 200 ChunkType.Class [Chunker.fileCrumb examplePath]

/-- The syntax-mode chunk for the nested method at rows 5–74 of
`nestedContent`; `visit_node` recurses into definition children, so the
sorted syntax-mode output is `[classChunk, methodChunk]`. -/
def methodChunk : Chunk :=
  Chunk.new (joinNl (List.replicate 70 ['a'])) 5 74 ChunkType.Other
    [Chunker.fileCrumb examplePath]

/-- The 10 000-line generated file of spec scenario E3: each line is `x`,
and no line is a definition. -/
def genContent : Str := joinNl (List.replicate 10000 ['x'])

/-! ## The daemon: store, manifest, per-file indexing (`src/commands/serve.rs`) -/

/-- Modelled from the spec: an embedding pair as produced by
`compute_hybrid` (§4.4; the `embed` interface module is not under `src/`).
`f32` entries are modelled as rationals. -/
structure HybridEmbedding where
  dense : List Rat
  colbert : List (List Rat)
  colbert_scale : Option Rat
deriving DecidableEq

/-- Modelled from the spec: `PreparedChunk` (the `types` module is not under
`src/`), as populated by `process_file` (`src/commands/serve.rs:413-429`). -/
structure PreparedChunk where
  id : Str
  path : Str
  hash : Str
  content : Str
  start_line : Nat
  end_line : Nat
  chunk_index : Option Nat
  is_anchor : Bool
  chunk_type : Option ChunkType
  context_prev : Option Str
  context_next : Option Str
deriving DecidableEq

/-- Modelled from the spec: `VectorRecord` (§3; the `types` module is not
under `src/`), as populated by `process_file`
(`src/commands/serve.rs:437-456`). -/
structure VectorRecord where
  id : Str
  path : Str
  hash : Str
  content : Str
  start_line : Nat
  end_line : Nat
  chunk_index : Option Nat
  is_anchor : Bool
  chunk_type : Option ChunkType
  context_prev : Option Str
  context_next : Option Str
  vector : List Rat
  colbert : List (List Rat)
  colbert_scale : Option Rat
deriving DecidableEq

/-- Modelled from the spec: `Store::insert_batch` (§4.3; the `store` module
is not under `src/`): "atomic replacement for each contained `path` — all
existing records with matching `path` are deleted before the new ones
land". -/
def insert_batch (records : List VectorRecord) (batch : List VectorRecord) :
    List VectorRecord :=
  (records.filter fun r => batch.all fun b => b.path ≠ r.path) ++ batch

/-- Modelled from the spec: `Store::delete_file` (§4.3): remove every record
whose path matches. -/
def delete_file (records : List VectorRecord) (path : Str) : List VectorRecord :=
  records.filter fun r => r.path ≠ path

/-- Modelled from the spec: the hash manifest (`MetaStore`; the `meta`
module is not under `src/`): a per-store map from file path to content hash
(§2 "Hash Manifest", §6 persisted layout). -/
def Manifest := Str → Option Str

/-- Modelled from the spec: `MetaStore::get_hash`. -/
def Manifest.get_hash (m : Manifest) (p : Str) : Option Str := m p

/-- Modelled from the spec: `MetaStore::set_hash`. -/
def Manifest.set_hash (m : Manifest) (p h : Str) : Manifest :=
  fun q => if q = p then some h else m q

/-- Modelled from the spec: `MetaStore::remove`. -/
def Manifest.remove (m : Manifest) (p : Str) : Manifest :=
  fun q => if q = p then none else m q

/-- The state touched by the indexing pipeline: the store's records for the
current store id plus the manifest. -/
structure SyncState where
  records : List VectorRecord
  manifest : Manifest

/-- Render a natural number, for record ids (`format!("{}:{}", path, i)`). -/
def natToStr (n : Nat) : Str := (Nat.repr n).data

/-- `process_file` (`src/commands/serve.rs:379-470`), with its effectful
collaborators abstracted: the file read is represented by passing `content`
directly (an unreadable file never reaches the body), SHA-256 by `hashFn`,
the chunker (including its tree-sitter parse) by `chunkFn`, and
`compute_hybrid` by `embedFn`. Returns the resulting state (or the error)
together with the number of `insert_batch` calls performed. The manifest
`save()` to disk is represented by the in-memory update itself. -/
def process_file (hashFn : Str → Str)
    (embedFn : List Str → Except Str (List HybridEmbedding))
    (chunkFn : Str → Str → List Chunk) (st : SyncState) (file_path content : Str) :
    Except Str SyncState × Nat :=
  if content = [] then (.ok st, 0)
  else
    let hash := hashFn content
    if st.manifest.get_hash file_path = some hash then (.ok st, 0)
    else
      let chunks := chunkFn content file_path
      if chunks = [] then (.ok st, 0)
      else
        let prepared : List PreparedChunk := chunks.enum.map fun ic =>
          { id := file_path ++ ':' :: natToStr ic.1
            path := file_path
            hash := hash
            content := ic.2.content
            start_line := ic.2.start_line
            end_line := ic.2.end_line
            chunk_index := some ic.1
            is_anchor := ic.2.is_anchor
            chunk_type := ic.2.chunk_type
            context_prev := ic.2.context.head?
            context_next := ic.2.context.getLast? }
        match embedFn (prepared.map PreparedChunk.content) with
        | .error e => (.error e, 0)
        | .ok embeddings =>
          let records : List VectorRecord := (prepared.zip embeddings).map fun pe =>
            { id := pe.1.id
              path := pe.1.path
              hash := pe.1.hash
              content := pe.1.content
              start_line := pe.1.start_line
              end_line := pe.1.end_line
              chunk_index := pe.1.chunk_index
              is_anchor := pe.1.is_anchor
              chunk_type := pe.1.chunk_type
              context_prev := pe.1.context_prev
              context_next := pe.1.context_next
              vector := pe.2.dense
              colbert := pe.2.colbert
              colbert_scale := pe.2.colbert_scale }
          (.ok { records := insert_batch st.records records
                 manifest := st.manifest.set_hash file_path hash }, 1)

/-- The per-file loop of `initial_sync` (`src/commands/serve.rs:346-377`):
process each file in order, logging and skipping failures (a failed file
leaves the state unchanged); returns the final state and the total number of
`insert_batch` calls. -/
def initial_sync (hashFn : Str → Str)
    (embedFn : List Str → Except Str (List HybridEmbedding))
    (chunkFn : Str → Str → List Chunk) (st : SyncState) :
    List (Str × Str) → SyncState × Nat
  | [] => (st, 0)
  | (p, c) :: rest =>
    let r := process_file hashFn embedFn chunkFn st p c
    let st1 := match r.1 with | .ok s => s | .error _ => st
    let rr := initial_sync hashFn embedFn chunkFn st1 rest
    (rr.1, r.2 + rr.2)

/-- The `WatchAction::Delete` branch of `start_watcher`
(`src/commands/serve.rs:495-504`): delete the file's records from the store,
remove its manifest entry, and persist the manifest. -/
def watch_delete (st : SyncState) (path : Str) : SyncState :=
  { records := delete_file st.records path
    manifest := st.manifest.remove path }

/-! ## The grammar manager (`src/grammar/mod.rs`) -/

/-- `SmgrepError` (`src/error.rs:3-34`). Note the enum has no
`GrammarUnavailable` variant; messages built with `format!` are modelled by
their fixed prefixes. -/
inductive SmgrepError
  | Io
  | Store (msg : Str)
  | Embedding (msg : Str)
  | Chunker (msg : Str)
  | Git (msg : Str)
  | Config (msg : Str)
  | Http (msg : Str)
  | Serialization
  | Other
  | LanceDb (msg : Str)
deriving DecidableEq

namespace GrammarManager

/-- The environment observed by one `GrammarManager::get_language` call:
the in-memory cache, the on-disk cache, the `auto_download` flag, the URL
table, the single-flight `downloading` set, and the outcomes of the network
request, the HTTP status check, the file write and the WASM load (a
corrupted on-disk blob makes `load_ok` false). -/
structure GrammarEnv where
  cached : Bool
  available : Bool
  auto_download : Bool
  has_url : Bool
  downloading : Bool
  request_ok : Bool
  http_ok : Bool
  write_ok : Bool
  load_ok : Bool
deriving DecidableEq

/-- Filesystem side effects of a `get_language` call: download attempts made
and on-disk grammar blobs deleted. -/
structure GrammarEffects where
  downloads : Nat
  deletes : Nat
deriving DecidableEq

/-- `GrammarManager::download_grammar_sync` (`src/grammar/mod.rs:159-207`):
no URL, a failed request, a non-2xx status, and a failed write/rename all
surface as `SmgrepError::Config`. -/
def download_grammar_sync (env : GrammarEnv) : Except SmgrepError Unit :=
  if env.has_url = false then .error (.Config ("unknown language: ").data)
  else if env.request_ok = false then .error (.Config ("failed to download ").data)
  else if env.http_ok = false then
    .error (.Config ("failed to download : HTTP ").data)
  else if env.write_ok = false then .error (.Config ("failed to write WASM file").data)
  else .ok ()

/-- `GrammarManager::load_language_from_file` (`src/grammar/mod.rs:144-157`):
an unreadable or corrupted blob surfaces as `SmgrepError::Chunker`. -/
def load_language_from_file (env : GrammarEnv) : Except SmgrepError Unit :=
  if env.load_ok then .ok () else .error (.Chunker ("failed to load language ").data)

/-- `GrammarManager::get_language` (`src/grammar/mod.rs:209-255`); the
loaded `Language` handle is abstracted to `Unit`. A failed download is
logged with `tracing::warn!` and yields `Ok(None)`
(`src/grammar/mod.rs:241-244`); a failed load propagates its error with `?`
(`src/grammar/mod.rs:247`). No path deletes the on-disk blob. -/
def get_language (env : GrammarEnv) :
    Except SmgrepError (Option Unit) × GrammarEffects :=
  if env.cached then (.ok (some ()), ⟨0, 0⟩)
  else if env.available = false then
    if env.auto_download = false then (.ok none, ⟨0, 0⟩)
    else if env.has_url = false then (.ok none, ⟨0, 0⟩)
    else if env.downloading then (.ok none, ⟨0, 0⟩)
    else
      match download_grammar_sync env with
      | .error _ => (.ok none, ⟨1, 0⟩)
      | .ok _ =>
        match load_language_from_file env with
        | .error e => (.error e, ⟨1, 0⟩)
        | .ok _ => (.ok (some ()), ⟨1, 0⟩)
  else
    match load_language_from_file env with
    | .error e => (.error e, ⟨0, 0⟩)
    | .ok _ => (.ok (some ()), ⟨0, 0⟩)

/-- The environment of a call that must download and receives an HTTP
non-2xx status. -/
def envHttp404 : GrammarEnv :=
  ⟨false, false, true, true, false, true, false, true, true⟩

/-- The environment of a call that finds a corrupted on-disk blob. -/
def envCorrupt : GrammarEnv :=
  ⟨false, true, true, true, false, true, true, true, false⟩

end GrammarManager

/-! ## The daemon's request handling (`src/commands/serve.rs`) -/

/-- Modelled from the spec: `SearchResult` (§6 wire shape; the `types`
module is not under `src/`); `f32` scores are modelled as rationals. -/
structure SearchResult where
  path : Str
  content : Str
  score : Rat
  start_line : Nat
  num_lines : Nat
  chunk_type : Option ChunkType
  is_anchor : Bool
deriving DecidableEq

/-- Modelled from the spec: `SearchStatus` (§6). -/
inductive SearchStatus
  | Ready
  | Indexing
deriving DecidableEq

/-- Modelled from the spec: `SearchResponse` (§6). -/
structure SearchResponse where
  results : List SearchResult
  status : SearchStatus
  progress : Option Nat
deriving DecidableEq

/-- Modelled from the spec: `ServerStatus` (§6), as populated by
`handle_client` (`src/commands/serve.rs:237-243`). -/
structure ServerStatus where
  indexing : Bool
  progress : Nat
  files : Nat
deriving DecidableEq

/-- Modelled from the spec: `ipc::Request` (§6; the `ipc` module is not
under `src/`). The spec's request table lists Hello, Search, Health and
Shutdown, and the repo's own client sends `Request::Hello` first on every
connection (`src/cmd/daemon.rs:90-100`). -/
inductive Request
  | Hello (build_id : Str)
  | Search (query : Str) (limit : Nat) (path : Option Str) (rerank : Bool)
  | Health
  | Shutdown
deriving DecidableEq

/-- Modelled from the spec: `ipc::Response` (§6). -/
inductive Response
  | Hello (build_id : Str)
  | Search (response : SearchResponse)
  | Health (status : ServerStatus)
  | Shutdown (success : Bool)
  | Error (message : Str)
deriving DecidableEq

/-- How many times `handle_search` invoked the embedder
(`encode_query`) and the store (`search`). -/
structure SearchEffects where
  embed_calls : Nat
  store_calls : Nat
deriving DecidableEq

/-- `handle_search` (`src/commands/serve.rs:259-344`), with the embedder and
the store abstracted as one-shot oracles for this request: `embedResult` is
what `encode_query` would return, `storeResult` what `store.search` would
return. The rewrite of result paths to repo-relative form is not modelled
(it does not affect the claims). Returns the response together with the
number of embedder and store invocations. -/
def handle_search (embedResult : Except Str Unit)
    (storeResult : Except Str (List SearchResult)) (indexing : Bool)
    (progress : Nat) (query : Str) : Response × SearchEffects :=
  if query = [] then (.Error ("query is required").data, ⟨0, 0⟩)
  else
    match embedResult with
    | .error _ => (.Error ("embedding failed: ").data, ⟨1, 0⟩)
    | .ok _ =>
      match storeResult with
      | .error _ => (.Error ("search failed: ").data, ⟨1, 1⟩)
      | .ok results =>
        (.Search
            ⟨results, if indexing then .Indexing else .Ready,
              if indexing then some progress else none⟩, ⟨1, 1⟩)

/-- What one iteration of the `handle_client` request loop does with a
decoded request. -/
inductive HandlerStep
  | reply (response : Response)
  | exit_process (final : Response)
  | no_arm
deriving DecidableEq

/-- The `match request` dispatch of `handle_client`
(`src/commands/serve.rs:233-250`): `Search` and `Health` produce a reply and
the loop continues; `Shutdown` sends `Shutdown { success: true }` and calls
`std::process::exit(0)`. The match has NO `Hello` arm — the dispatch covers
only Search, Health and Shutdown — so a `Hello` first message is mapped to
`no_arm`: the daemon has no response for it. -/
def handle_request (embedResult : Except Str Unit)
    (storeResult : Except Str (List SearchResult)) (indexing : Bool)
    (progress : Nat) : Request → HandlerStep
  | .Search query _limit _path _rerank =>
    .reply (handle_search embedResult storeResult indexing progress query).1
  | .Health => .reply (.Health ⟨indexing, progress, 0⟩)
  | .Shutdown => .exit_process (.Shutdown true)
  | .Hello _ => .no_arm

/-- How a daemon shutdown was initiated. -/
inductive ShutdownTrigger
  | explicit_request
  | idle_timeout
deriving DecidableEq

/-- Observable facts about the daemon's teardown. -/
structure ShutdownRun where
  refused_new_connections : Bool
  waited_for_inflight : Bool
  socket_unlinked : Bool
  exited : Bool
deriving DecidableEq

/-- The daemon's two shutdown paths. Explicit `Shutdown` request:
`handle_client` replies `Shutdown { success: true }` and immediately calls
`std::process::exit(0)` (`src/commands/serve.rs:244-249`) — control never
returns to `execute`, so the accept loop keeps running until the process
dies, spawned client tasks are not awaited, and the
`std::fs::remove_file(&socket_path)` at `src/commands/serve.rs:203-204`
never runs. Idle timeout: the idle task sends on the shutdown channel
(`src/commands/serve.rs:148-157`); `execute` then breaks out of its select,
aborts the accept loop and removes the socket file
(`src/commands/serve.rs:203-204`) without awaiting the spawned client
tasks. -/
def daemon_shutdown : ShutdownTrigger → ShutdownRun
  | .explicit_request =>
    { refused_new_connections := false
      waited_for_inflight := false
      socket_unlinked := false
      exited := true }
  | .idle_timeout =>
    { refused_new_connections := true
      waited_for_inflight := false
      socket_unlinked := true
      exited := true }

/-! ## The search engine (`src/search/mod.rs`) -/

/-- Modelled from the spec: the chunk-type part of the structural boost of
`ranking::apply_structural_boost` (§4.5; `src/search/ranking.rs` is not
under `src/`): "small bonuses by `chunk_type`: class > function > block >
other". -/
def type_bonus : Option ChunkType → Rat
  | some .Class => 4 / 100
  | some .Interface => 4 / 100
  | some .TypeAlias => 4 / 100
  | some .Function => 3 / 100
  | some .Block => 2 / 100
  | some .Other => 1 / 100
  | none => 0

/-- Modelled from the spec: `ranking::apply_structural_boost` (§4.5;
`src/search/ranking.rs` is not under `src/`): add a small anchor bonus and a
chunk-type bonus to each score. -/
def apply_structural_boost (results : List SearchResult) : List SearchResult :=
  results.map fun r =>
    { r with score := r.score + (if r.is_anchor then 1 / 20 else 0) + type_bonus r.chunk_type }

/-- The descending-score order of the `sort_by` in `SearchEngine::search`
(`src/search/mod.rs:53-57`): `b.score.partial_cmp(&a.score)`. -/
def scoreGe (a b : SearchResult) : Prop := b.score ≤ a.score

instance : DecidableRel scoreGe := fun a b => by
  unfold scoreGe; infer_instance

/-- Modelled from the spec: the walk of `ranking::apply_per_file_limit`
(§4.5; `src/search/ranking.rs` is not under `src/`): "walk the sorted list
keeping at most `per_file_limit` entries per `path`, preserving global
order". `counts` tracks how many entries of each path have been kept. -/
def per_file_go (k : Nat) : (Str → Nat) → List SearchResult → List SearchResult
  | _, [] => []
  | counts, r :: rest =>
    if counts r.path < k then
      r :: per_file_go k (fun p => if p = r.path then counts p + 1 else counts p) rest
    else per_file_go k counts rest

/-- Modelled from the spec: `ranking::apply_per_file_limit` (§4.5). -/
def apply_per_file_limit (results : List SearchResult) (k : Nat) : List SearchResult :=
  per_file_go k (fun _ => 0) results

/-- `SearchEngine::search` (`src/search/mod.rs:23-66`), with the embedder
and the store abstracted: `storeResults` is the store's response for
`limit * 2` candidates. The engine boosts, re-sorts descending, applies the
per-file cap when `per_file_limit > 0`, and truncates to `limit`. -/
def SearchEngine.search (storeResults : List SearchResult)
    (limit per_file_limit : Nat) : List SearchResult :=
  let boosted := apply_structural_boost storeResults
  let sorted := boosted.insertionSort scoreGe
  let capped :=
    if 0 < per_file_limit then apply_per_file_limit sorted per_file_limit else sorted
  capped.take limit

/-! ## Ordering instances -/

instance : IsTotal Chunk Chunker.chunkLe :=
  ⟨fun a b => by unfold Chunker.chunkLe; omega⟩

instance : IsTrans Chunk Chunker.chunkLe :=
  ⟨fun a b c hab hbc => by unfold Chunker.chunkLe at *; omega⟩

instance : IsTotal SearchResult scoreGe :=
  ⟨fun a b => by unfold scoreGe; exact le_total b.score a.score⟩

instance : IsTrans SearchResult scoreGe :=
  ⟨fun a b c hab hbc => by unfold scoreGe at *; exact le_trans hbc hab⟩

/-! ## Concrete inputs used in witnesses -/

/-- A hash oracle for witnesses: every content hashes to `h`. -/
def hashW : Str → Str := fun _ => ['h']

/-- An embedder oracle for witnesses: one trivial embedding per text. -/
def embedW : List Str → Except Str (List HybridEmbedding) :=
  fun texts => .ok (texts.map fun _ => ⟨[], [], none⟩)

/-- A chunker oracle for witnesses: the whole content as one block chunk. -/
def chunkW : Str → Str → List Chunk :=
  fun content _ => [Chunk.new content 0 1 ChunkType.Block []]

/-- An empty store and manifest. -/
def emptySync : SyncState := ⟨[], fun _ => none⟩

/-- A witness file path. -/
def pW : Str := ['f']

/-- A witness file content. -/
def cW : Str := ['x']

/-- The record `process_file hashW embedW chunkW emptySync pW cW` inserts. -/
def recW : VectorRecord :=
  { id := pW ++ ':' :: natToStr 0
    path := pW
    hash := ['h']
    content := cW
    start_line := 0
    end_line := 1
    chunk_index := some 0
    is_anchor := false
    chunk_type := some ChunkType.Block
    context_prev := none
    context_next := none
    vector := []
    colbert := []
    colbert_scale := none }

/-- The state after `process_file hashW embedW chunkW emptySync pW cW`. -/
def syncAfterW : SyncState :=
  ⟨[recW], Manifest.set_hash (fun _ => none) pW ['h']⟩

/-- A manifest already holding the witness file's hash. -/
def manifestW : Manifest := fun q => if q = pW then some ['h'] else none

/-- A state whose manifest already matches the witness file. -/
def syncFullW : SyncState := ⟨[recW], manifestW⟩

/-- Two store results sharing one path, for the per-file-cap witness. -/
def resultsW : List SearchResult :=
  [⟨['p'], ['c'], 1, 0, 1, some ChunkType.Other, false⟩,
   ⟨['p'], ['d'], 2, 5, 1, some ChunkType.Other, false⟩]

/-- The environment of a `get_language` call with the grammar missing and
auto-download disabled. -/
def envNoAuto : GrammarManager.GrammarEnv :=
  ⟨false, false, false, true, false, true, true, true, true⟩

/-! # Theorems

## Basic facts about the string model -/

theorem splitNl_ne_nil (s : Str) : splitNl s ≠ [] := by
  cases s with
  | nil => simp [splitNl]
  | cons c rest =>
    simp only [splitNl]
    split
    · simp
    · cases h : splitNl rest <;> simp

theorem nl_not_mem_splitNl : ∀ (s : Str), ∀ seg ∈ splitNl s, '\n' ∉ seg := by
  intro s
  induction s with
  | nil =>
    intro seg h
    simp [splitNl] at h
    simp [h]
  | cons c rest ih =>
    intro seg h
    by_cases hc : c = '\n'
    · simp only [splitNl, if_pos hc] at h
      rcases List.mem_cons.mp h with h | h
      · simp [h]
      · exact ih seg h
    · simp only [splitNl, if_neg hc] at h
      cases hrest : splitNl rest with
      | nil => exact absurd hrest (splitNl_ne_nil rest)
      | cons seg0 segs =>
        rw [hrest] at h
        rcases List.mem_cons.mp h with h | h
        · subst h
          intro hmem
          rcases List.mem_cons.mp hmem with h | h
          · exact hc h.symm
          · exact ih seg0 (by rw [hrest]; exact List.mem_cons_self ..) h
        · exact ih seg (by rw [hrest]; exact List.mem_cons_of_mem _ h)

theorem joinNl_cons_of_ne_nil (seg : Str) (l : List Str) (h : l ≠ []) :
    joinNl (seg :: l) = seg ++ '\n' :: joinNl l := by
  cases l with
  | nil => exact absurd rfl h
  | cons a t => rfl

theorem joinNl_splitNl (s : Str) : joinNl (splitNl s) = s := by
  induction s with
  | nil => simp [splitNl, joinNl]
  | cons c rest ih =>
    by_cases hc : c = '\n'
    · rw [show splitNl (c :: rest) = [] :: splitNl rest by simp [splitNl, hc]]
      rw [joinNl_cons_of_ne_nil [] _ (splitNl_ne_nil rest), ih, hc]
      rfl
    · simp only [splitNl, if_neg hc]
      cases hrest : splitNl rest with
      | nil => exact absurd hrest (splitNl_ne_nil rest)
      | cons seg0 segs =>
        rw [hrest] at ih
        cases segs with
        | nil =>
          simp only [joinNl] at ih ⊢
          rw [ih]
        | cons s1 t1 =>
          rw [joinNl_cons_of_ne_nil _ _ (by simp)] at ih
          rw [joinNl_cons_of_ne_nil _ _ (by simp), List.cons_append, ih]

theorem length_splitNl (s : Str) : (splitNl s).length = countNl s + 1 := by
  induction s with
  | nil => simp [splitNl, countNl]
  | cons c rest ih =>
    by_cases hc : c = '\n'
    · simp [splitNl, hc, countNl, List.count_cons] at ih ⊢
      omega
    · simp only [splitNl, if_neg hc]
      cases hrest : splitNl rest with
      | nil => exact absurd hrest (splitNl_ne_nil rest)
      | cons seg0 segs =>
        rw [hrest] at ih
        simp only [countNl, List.count_cons] at ih ⊢
        simp [List.length_cons] at ih ⊢
        have : ¬ (c = '\n') := hc
        simp [this]
        omega

theorem splitNl_no_nl (s : Str) (h : '\n' ∉ s) : splitNl s = [s] := by
  induction s with
  | nil => rfl
  | cons c rest ih =>
    have hc : ¬ (c = '\n') := fun hh => h (hh ▸ List.mem_cons_self ..)
    simp only [splitNl, if_neg hc]
    rw [ih (fun hm => h (List.mem_cons_of_mem _ hm))]

theorem splitNl_append_nl (seg : Str) (h : '\n' ∉ seg) (t : Str) :
    splitNl (seg ++ '\n' :: t) = seg :: splitNl t := by
  induction seg with
  | nil => simp [splitNl]
  | cons c cs ih =>
    have hc : ¬ (c = '\n') := fun hh => h (hh ▸ List.mem_cons_self ..)
    simp only [List.cons_append, List.append_eq, splitNl, if_neg hc]
    rw [ih (fun hm => h (List.mem_cons_of_mem _ hm))]

theorem splitNl_joinNl (segs : List Str) (hne : segs ≠ [])
    (hnl : ∀ seg ∈ segs, '\n' ∉ seg) : splitNl (joinNl segs) = segs := by
  induction segs with
  | nil => exact absurd rfl hne
  | cons seg rest ih =>
    cases rest with
    | nil => exact splitNl_no_nl seg (hnl seg (List.mem_cons_self ..))
    | cons s1 t1 =>
      rw [joinNl_cons_of_ne_nil _ _ (by simp)]
      rw [splitNl_append_nl seg (hnl seg (List.mem_cons_self ..))]
      rw [ih (by simp) (fun x hx => hnl x (List.mem_cons_of_mem _ hx))]

theorem rustLines_joinNl (segs : List Str) (hne : segs ≠ [])
    (hnl : ∀ seg ∈ segs, '\n' ∉ seg) (hlast : segs.getLast? ≠ some []) :
    rustLines (joinNl segs) = segs := by
  have hsp := splitNl_joinNl segs hne hnl
  unfold rustLines
  by_cases hj : joinNl segs = []
  · rw [hj] at hsp
    simp [splitNl] at hsp
    rw [← hsp] at hlast
    simp at hlast
  · rw [if_neg hj, hsp, if_neg hlast]

theorem linesCount_le_splitNl_length (s : Str) : linesCount s ≤ (splitNl s).length := by
  unfold linesCount rustLines
  split
  · simp
  · split
    · exact le_trans (le_of_eq (List.length_dropLast _)) (by omega)
    · exact le_refl _

theorem linesCount_le_countNl_add_one (s : Str) : linesCount s ≤ countNl s + 1 :=
  le_trans (linesCount_le_splitNl_length s) (le_of_eq (length_splitNl s))

theorem countNl_le_linesCount (s : Str) : countNl s ≤ linesCount s := by
  unfold linesCount rustLines
  split
  · rename_i h
    subst h
    simp [countNl]
  · have hlen := length_splitNl s
    split
    · rw [List.length_dropLast, hlen]
      omega
    · omega

theorem countNl_le_of_sublist {t s : Str} (h : List.Sublist t s) :
    countNl t ≤ countNl s :=
  h.count_le '\n'

theorem trimStart_sublist (s : Str) : List.Sublist (trimStart s) s :=
  List.dropWhile_sublist _

theorem trimEnd_sublist (s : Str) : List.Sublist (trimEnd s) s := by
  have h := (List.dropWhile_sublist (l := s.reverse) Char.isWhitespace).reverse
  rw [List.reverse_reverse] at h
  exact h

theorem trim_sublist (s : Str) : List.Sublist (trim s) s :=
  (trimEnd_sublist _).trans (trimStart_sublist s)

theorem mem_rustLines_no_nl (s : Str) : ∀ seg ∈ rustLines s, '\n' ∉ seg := by
  intro seg h
  unfold rustLines at h
  split at h
  · simp at h
  · split at h
    · exact nl_not_mem_splitNl s seg (List.dropLast_sublist _ |>.mem h)
    · exact nl_not_mem_splitNl s seg h

/-! ## Correctness of `line_range_to_byte_range` on line decompositions -/

theorem relOff_zero (segs : List Str) : relOff segs 0 = 0 := by
  simp [relOff]

theorem relOff_cons (seg : Str) (rest : List Str) (j : Nat) :
    relOff (seg :: rest) (j + 1) = seg.length + 1 + relOff rest j := by
  simp [relOff, List.take_succ_cons]
  try omega

theorem relOff_one (seg : Str) (rest : List Str) :
    relOff (seg :: rest) 1 = seg.length + 1 := by
  rw [show (1 : Nat) = 0 + 1 from rfl, relOff_cons, relOff_zero]

theorem le_relOff (segs : List Str) (j : Nat) (h : j ≤ segs.length) :
    j ≤ relOff segs j := by
  induction segs generalizing j with
  | nil =>
    have hj : j = 0 := by simpa using h
    subst hj
    simp [relOff_zero]
  | cons seg rest ih =>
    cases j with
    | zero => simp [relOff_zero]
    | succ j0 =>
      rw [relOff_cons]
      have := ih j0 (by simp at h; omega)
      omega

theorem length_joinNl (segs : List Str) (hne : segs ≠ []) :
    (joinNl segs).length = relOff segs segs.length - 1 := by
  induction segs with
  | nil => exact absurd rfl hne
  | cons seg rest ih =>
    cases rest with
    | nil => simp [joinNl, relOff_one]
    | cons s1 t1 =>
      rw [joinNl_cons_of_ne_nil _ _ (by simp), List.length_append, List.length_cons,
        ih (by simp)]
      have hlen : (seg :: s1 :: t1 : List Str).length = (s1 :: t1 : List Str).length + 1 := rfl
      rw [hlen, relOff_cons]
      have h1 : 1 ≤ relOff (s1 :: t1) (s1 :: t1 : List Str).length :=
        le_trans (by simp) (le_relOff _ _ (le_refl _))
      omega

theorem lineRangeAux_append_no_nl (i e tot : Nat) (seg : Str) (h : '\n' ∉ seg) :
    ∀ (rest : Str) (idx cur sb : Nat),
      Chunker.lineRangeAux i e tot (seg ++ rest) idx cur sb =
        Chunker.lineRangeAux i e tot rest (idx + seg.length) cur sb := by
  induction seg with
  | nil => intro rest idx cur sb; simp
  | cons c cs ih =>
    intro rest idx cur sb
    have hc : ¬ (c = '\n') := fun hh => h (hh ▸ List.mem_cons_self ..)
    simp only [List.cons_append, List.append_eq, Chunker.lineRangeAux, if_neg hc]
    rw [ih (fun hm => h (List.mem_cons_of_mem _ hm)) rest (idx + 1) cur sb]
    have hx : idx + 1 + cs.length = idx + (c :: cs : Str).length := by simp; omega
    rw [hx]

theorem lineRangeAux_joinNl :
    ∀ (segs : List Str) (i e tot idx cur sb : Nat),
      (∀ seg ∈ segs, '\n' ∉ seg) → cur < e → e ≤ cur + segs.length → i < e →
      Chunker.lineRangeAux i e tot (joinNl segs) idx cur sb =
        ((if i ≤ cur then sb else idx + relOff segs (i - cur)),
         (if e - cur < segs.length then idx + relOff segs (e - cur) - 1 else tot)) := by
  intro segs
  induction segs with
  | nil =>
    intro i e tot idx cur sb hnl hcur he hi
    simp at he
    omega
  | cons seg rest ih =>
    intro i e tot idx cur sb hnl hcur he hi
    cases rest with
    | nil =>
      have h1 : e = cur + 1 := by simp at he; omega
      have h2 : i ≤ cur := by omega
      have hskip := lineRangeAux_append_no_nl i e tot seg
        (hnl seg (List.mem_cons_self ..)) [] idx cur sb
      rw [List.append_nil] at hskip
      rw [show joinNl [seg] = seg from rfl, hskip]
      simp only [Chunker.lineRangeAux]
      have hD : ¬ (e - cur < ([seg] : List Str).length) := by simp; omega
      rw [if_pos h2, if_neg hD]
    | cons seg2 rest2 =>
      rw [joinNl_cons_of_ne_nil _ _ (by simp),
        lineRangeAux_append_no_nl i e tot seg (hnl seg (List.mem_cons_self ..))]
      simp only [Chunker.lineRangeAux, if_true]
      by_cases hce : cur + 1 = e
      · rw [if_pos hce, Prod.mk.injEq]
        have hstart : i ≤ cur := by omega
        refine ⟨?_, ?_⟩
        · rw [if_pos hstart]
        · have hD : e - cur < (seg :: seg2 :: rest2 : List Str).length := by
            simp
            omega
          rw [if_pos hD, show e - cur = 1 from by omega, relOff_one]
          omega
      · rw [if_neg hce]
        rw [ih i e tot (idx + seg.length + 1) (cur + 1)
          (if cur + 1 = i then idx + seg.length + 1 else sb)
          (fun x hx => hnl x (List.mem_cons_of_mem _ hx)) (by omega)
          (by simp at he ⊢; omega) hi]
        rw [Prod.mk.injEq]
        refine ⟨?_, ?_⟩
        · by_cases hic : i ≤ cur
          · have hA : i ≤ cur + 1 := by omega
            have hB : ¬ (cur + 1 = i) := by omega
            rw [if_pos hA, if_neg hB, if_pos hic]
          · by_cases hie : i = cur + 1
            · have hA : i ≤ cur + 1 := by omega
              have hB : cur + 1 = i := by omega
              rw [if_pos hA, if_pos hB, if_neg hic,
                show i - cur = 1 from by omega, relOff_one]
              omega
            · have hA : ¬ (i ≤ cur + 1) := by omega
              rw [if_neg hA, if_neg hic,
                show i - cur = (i - (cur + 1)) + 1 from by omega, relOff_cons]
              omega
        · by_cases hlt : e - (cur + 1) < (seg2 :: rest2 : List Str).length
          · have hD : e - cur < (seg :: seg2 :: rest2 : List Str).length := by
              simp at hlt ⊢
              omega
            rw [if_pos hlt, if_pos hD,
              show e - cur = (e - (cur + 1)) + 1 from by omega, relOff_cons]
            rcases Nat.eq_zero_or_pos (e - (cur + 1)) with h0 | h0
            · rw [h0, relOff_zero]
              omega
            · have h1 : 1 ≤ relOff (seg2 :: rest2) (e - (cur + 1)) := by
                refine le_trans h0 (le_relOff _ _ ?_)
                simp at hlt ⊢
                omega
              omega
          · have hD : ¬ (e - cur < (seg :: seg2 :: rest2 : List Str).length) := by
              simp at hlt ⊢
              omega
            rw [if_neg hlt, if_neg hD]

theorem line_range_correct (s : Str) (i e : Nat) (hi : i < e)
    (he : e ≤ (splitNl s).length) :
    Chunker.line_range_to_byte_range s i e =
      (relOff (splitNl s) i, relOff (splitNl s) e - 1) := by
  unfold Chunker.line_range_to_byte_range
  have hrw : s = joinNl (splitNl s) := (joinNl_splitNl s).symm
  rw [show Chunker.lineRangeAux i e s.length s 0 0 0 =
        Chunker.lineRangeAux i e s.length (joinNl (splitNl s)) 0 0 0 from by
      rw [← hrw]]
  rw [lineRangeAux_joinNl (splitNl s) i e s.length 0 0 0 (nl_not_mem_splitNl s)
    (by omega) (by simpa using he) hi]
  simp only [Nat.sub_zero, Nat.zero_add]
  rw [Prod.mk.injEq]
  refine ⟨?_, ?_⟩
  · by_cases hi0 : i ≤ 0
    · rw [if_pos hi0, show i = 0 from by omega, relOff_zero]
    · rw [if_neg hi0]
  · by_cases hlt : e < (splitNl s).length
    · rw [if_pos hlt]
    · rw [if_neg hlt]
      have he2 : e = (splitNl s).length := by omega
      have hlj := length_joinNl (splitNl s) (splitNl_ne_nil s)
      rw [← hrw] at hlj
      rw [hlj, he2]

/-! ## The content of a line window -/

theorem relOff_add (segs : List Str) (i j : Nat) :
    relOff segs (i + j) = relOff segs i + relOff (segs.drop i) j := by
  unfold relOff
  rw [List.take_add, List.map_append, List.sum_append]

theorem take_joinNl (segs : List Str) (e : Nat) (he1 : 1 ≤ e) (he : e ≤ segs.length) :
    (joinNl segs).take (relOff segs e - 1) = joinNl (segs.take e) := by
  induction segs generalizing e with
  | nil => simp at he; omega
  | cons seg rest ih =>
    by_cases hrest : rest = []
    · subst hrest
      have he2 : e = 1 := by simp at he; omega
      subst he2
      rw [relOff_one]
      simp [joinNl]
    · rw [joinNl_cons_of_ne_nil _ _ hrest]
      cases e with
      | zero => omega
      | succ e0 =>
        cases e0 with
        | zero =>
          rw [relOff_one]
          have h1 : seg.length + 1 - 1 = seg.length := by omega
          rw [h1, List.take_left]
          simp [joinNl]
        | succ e1 =>
          rw [relOff_cons]
          have hlen : e1 + 1 ≤ rest.length := by simp at he; omega
          have hro : 1 ≤ relOff rest (e1 + 1) :=
            le_trans (by omega) (le_relOff rest (e1 + 1) hlen)
          have harith : seg.length + 1 + relOff rest (e1 + 1) - 1 =
              seg.length + (1 + (relOff rest (e1 + 1) - 1)) := by omega
          rw [harith, List.take_append, show (1 + (relOff rest (e1 + 1) - 1)) =
            (relOff rest (e1 + 1) - 1) + 1 from by omega]
          rw [List.take_succ_cons, ih (e1 + 1) (by omega) hlen]
          have htne : rest.take (e1 + 1) ≠ [] := by
            refine List.length_pos.mp ?_
            rw [List.length_take]
            omega
          rw [List.take_succ_cons, joinNl_cons_of_ne_nil _ _ htne]

theorem drop_joinNl (segs : List Str) (i : Nat) (hi : i < segs.length) :
    (joinNl segs).drop (relOff segs i) = joinNl (segs.drop i) := by
  induction segs generalizing i with
  | nil => simp at hi
  | cons seg rest ih =>
    cases i with
    | zero => simp [relOff_zero]
    | succ i0 =>
      have hrest : rest ≠ [] := by
        intro h
        subst h
        simp at hi
      rw [joinNl_cons_of_ne_nil _ _ hrest, relOff_cons]
      have h1 : seg.length + 1 + relOff rest i0 = seg.length + (1 + relOff rest i0) := by
        omega
      rw [h1, List.drop_append, show 1 + relOff rest i0 = relOff rest i0 + 1 from by omega]
      rw [List.drop_succ_cons, List.drop_succ_cons]
      exact ih i0 (by simp at hi; omega)

theorem sliceStr_window (s : Str) (i e : Nat) (hi : i < e)
    (he : e ≤ (splitNl s).length) :
    sliceStr s (relOff (splitNl s) i) (relOff (splitNl s) e - 1) =
      joinNl (((splitNl s).drop i).take (e - i)) := by
  have hiL : i < (splitNl s).length := lt_of_lt_of_le hi he
  have hdrop : s.drop (relOff (splitNl s) i) = joinNl ((splitNl s).drop i) := by
    have h0 := drop_joinNl (splitNl s) i hiL
    rw [joinNl_splitNl s] at h0
    exact h0
  unfold sliceStr
  rw [hdrop]
  have hsplit : e = i + (e - i) := by omega
  have hadd := relOff_add (splitNl s) i (e - i)
  rw [← hsplit] at hadd
  have hro : 1 ≤ relOff ((splitNl s).drop i) (e - i) := by
    refine le_trans (by omega) (le_relOff _ _ ?_)
    rw [List.length_drop]
    omega
  have harith : relOff (splitNl s) e - 1 - relOff (splitNl s) i =
      relOff ((splitNl s).drop i) (e - i) - 1 := by omega
  rw [harith]
  exact take_joinNl ((splitNl s).drop i) (e - i) (by omega)
    (by rw [List.length_drop]; omega)

theorem countNl_joinNl (segs : List Str) (hne : segs ≠ [])
    (hnl : ∀ seg ∈ segs, '\n' ∉ seg) : countNl (joinNl segs) = segs.length - 1 := by
  induction segs with
  | nil => exact absurd rfl hne
  | cons seg rest ih =>
    cases rest with
    | nil =>
      show countNl seg = 0
      exact List.count_eq_zero.mpr (hnl seg (List.mem_cons_self ..))
    | cons s1 t1 =>
      rw [joinNl_cons_of_ne_nil _ _ (by simp)]
      unfold countNl at ih ⊢
      rw [List.count_append, List.count_cons]
      have h0 : seg.count '\n' = 0 :=
        List.count_eq_zero.mpr (hnl seg (List.mem_cons_self ..))
      rw [h0, ih (by simp) (fun x hx => hnl x (List.mem_cons_of_mem _ hx))]
      simp

theorem window_segs_ne_nil (segs : List Str) (i e : Nat) (hi : i < e)
    (he : e ≤ segs.length) : (segs.drop i).take (e - i) ≠ [] := by
  intro hcon
  have := congrArg List.length hcon
  simp [List.length_take, List.length_drop] at this
  omega

theorem countNl_window (s : Str) (i e : Nat) (hi : i < e)
    (he : e ≤ (splitNl s).length) :
    countNl (sliceStr s (relOff (splitNl s) i) (relOff (splitNl s) e - 1)) =
      e - i - 1 := by
  rw [sliceStr_window s i e hi he]
  rw [countNl_joinNl _ (window_segs_ne_nil _ i e hi he)
    (fun x hx => nl_not_mem_splitNl s x
      (((List.take_sublist _ _).trans (List.drop_sublist _ _)).mem hx))]
  simp [List.length_take, List.length_drop]
  omega

/-! ## Bounds on the chunks produced by the secondary split -/

theorem mem_charSplitGo (ty : ChunkType) (ctx : List Str) :
    ∀ (fuel : Nat) (iter : Str) (ln : Nat) (c : Chunk),
      c ∈ Chunker.charSplitGo ty ctx fuel iter ln →
      c.content.length ≤ Chunker.MAX_CHARS ∧ countNl c.content ≤ countNl iter := by
  intro fuel
  induction fuel with
  | zero =>
    intro iter ln c h
    simp [Chunker.charSplitGo] at h
  | succ f ih =>
    intro iter ln c h
    simp only [Chunker.charSplitGo] at h
    by_cases h0 : trimStart iter = []
    · rw [if_pos h0] at h
      simp at h
    · rw [if_neg h0] at h
      have hb1 : countNl (trimStart iter) ≤ countNl iter :=
        countNl_le_of_sublist (trimStart_sublist iter)
      by_cases h1 :
          trimEnd ((trimStart iter).take
            (min Chunker.MAX_CHARS (trimStart iter).length)) = []
      · rw [if_pos h1] at h
        have hr := ih _ _ c h
        exact ⟨hr.1, le_trans hr.2
          (le_trans (countNl_le_of_sublist (List.drop_sublist _ _)) hb1)⟩
      · rw [if_neg h1] at h
        rcases List.mem_cons.mp h with hc | hc
        · subst hc
          refine ⟨?_, ?_⟩
          · show (trimEnd _).length ≤ Chunker.MAX_CHARS
            refine le_trans (trimEnd_sublist _).length_le ?_
            rw [List.length_take]
            unfold Chunker.MAX_CHARS
            omega
          · show countNl (trimEnd _) ≤ countNl iter
            refine le_trans (countNl_le_of_sublist (trimEnd_sublist _)) ?_
            exact le_trans (countNl_le_of_sublist (List.take_sublist _ _)) hb1
        · have hr := ih _ _ c hc
          exact ⟨hr.1, le_trans hr.2
            (le_trans (countNl_le_of_sublist (List.drop_sublist _ _)) hb1)⟩

theorem mem_split_by_chars (ch c : Chunk) (h : c ∈ Chunker.split_by_chars ch) :
    c.content.length ≤ Chunker.MAX_CHARS ∧
      linesCount c.content ≤ countNl ch.content + 1 := by
  have hr := mem_charSplitGo _ _ _ _ _ c h
  refine ⟨hr.1, le_trans (linesCount_le_countNl_add_one _) ?_⟩
  have := hr.2
  omega

theorem extract_header_no_nl (s : Str) (hd : Str)
    (hh : Chunker.extract_header_line s = some hd) : countNl hd = 0 := by
  unfold Chunker.extract_header_line at hh
  obtain ⟨line, hline, hf⟩ := List.exists_of_findSome?_eq_some hh
  by_cases ht : trim line = []
  · simp [ht] at hf
  · simp only [if_neg ht, Option.some.injEq] at hf
    subst hf
    exact List.count_eq_zero.mpr fun hmem =>
      mem_rustLines_no_nl s line hline ((trim_sublist line).mem hmem)

theorem mem_sitgGo (ch : Chunk) (header : Option Str)
    (hhd : ∀ hd, header = some hd → countNl hd = 0) :
    ∀ (fuel i : Nat) (c : Chunk),
      c ∈ Chunker.sitgGo ch (linesCount ch.content) header fuel i →
      countNl c.content ≤ Chunker.MAX_LINES := by
  intro fuel
  induction fuel with
  | zero =>
    intro i c h
    simp [Chunker.sitgGo] at h
  | succ f ih =>
    intro i c h
    simp only [Chunker.sitgGo] at h
    by_cases h0 : i < linesCount ch.content
    · rw [if_pos h0] at h
      by_cases h1 :
          min (i + Chunker.MAX_LINES) (linesCount ch.content) - i < 3 ∧ 0 < i
      · rw [if_pos h1] at h
        exact ih _ c h
      · rw [if_neg h1] at h
        rcases List.mem_cons.mp h with hc | hc
        · have hie : i < min (i + Chunker.MAX_LINES) (linesCount ch.content) := by
            unfold Chunker.MAX_LINES
            omega
          have hee : min (i + Chunker.MAX_LINES) (linesCount ch.content) ≤
              (splitNl ch.content).length :=
            le_trans (min_le_right _ _) (linesCount_le_splitNl_length _)
          have hbr := line_range_correct ch.content i
            (min (i + Chunker.MAX_LINES) (linesCount ch.content)) hie hee
          have hcnt := countNl_window ch.content i
            (min (i + Chunker.MAX_LINES) (linesCount ch.content)) hie hee
          have hbr1 : (Chunker.line_range_to_byte_range ch.content i
              (min (i + Chunker.MAX_LINES) (linesCount ch.content))).1 =
              relOff (splitNl ch.content) i := by rw [hbr]
          have hbr2 : (Chunker.line_range_to_byte_range ch.content i
              (min (i + Chunker.MAX_LINES) (linesCount ch.content))).2 =
              relOff (splitNl ch.content)
                (min (i + Chunker.MAX_LINES) (linesCount ch.content)) - 1 := by rw [hbr]
          have hcc := congrArg Chunk.content hc
          simp only [Chunk.new] at hcc
          rw [hbr1, hbr2] at hcc
          rw [hcc]
          cases header with
          | none =>
            show countNl (sliceStr ch.content (relOff (splitNl ch.content) i)
              (relOff (splitNl ch.content)
                (min (i + Chunker.MAX_LINES) (linesCount ch.content)) - 1)) ≤
              Chunker.MAX_LINES
            rw [hcnt]
            unfold Chunker.MAX_LINES at *
            omega
          | some hd =>
            have hhd0 : countNl hd = 0 := hhd hd rfl
            show countNl (if 0 < i ∧ ch.chunk_type ≠ some ChunkType.Block then
                hd ++ '\n' :: sliceStr ch.content (relOff (splitNl ch.content) i)
                  (relOff (splitNl ch.content)
                    (min (i + Chunker.MAX_LINES) (linesCount ch.content)) - 1)
              else sliceStr ch.content (relOff (splitNl ch.content) i)
                  (relOff (splitNl ch.content)
                    (min (i + Chunker.MAX_LINES) (linesCount ch.content)) - 1)) ≤
              Chunker.MAX_LINES
            by_cases h2 : 0 < i ∧ ch.chunk_type ≠ some ChunkType.Block
            · rw [if_pos h2]
              unfold countNl at hhd0 hcnt ⊢
              simp [List.count_append, List.count_cons, hhd0, hcnt]
              unfold Chunker.MAX_LINES at *
              omega
            · rw [if_neg h2, hcnt]
              unfold Chunker.MAX_LINES at *
              omega
        · exact ih _ c hc
    · rw [if_neg h0] at h
      simp at h

theorem mem_split_if_too_big (ch c : Chunk) (h : c ∈ Chunker.split_if_too_big ch) :
    linesCount c.content ≤ Chunker.MAX_LINES + 1 ∧
      c.content.length ≤ Chunker.MAX_CHARS := by
  simp only [Chunker.split_if_too_big] at h
  by_cases h1 : linesCount ch.content ≤ Chunker.MAX_LINES ∧
      ch.content.length ≤ Chunker.MAX_CHARS
  · rw [if_pos h1] at h
    simp at h
    subst h
    exact ⟨by omega, h1.2⟩
  · rw [if_neg h1] at h
    by_cases h2 : Chunker.MAX_CHARS < ch.content.length ∧
        linesCount ch.content ≤ Chunker.MAX_LINES
    · rw [if_pos h2] at h
      have hr := mem_split_by_chars ch c h
      refine ⟨?_, hr.1⟩
      have h3 := countNl_le_linesCount ch.content
      have := hr.2
      omega
    · rw [if_neg h2] at h
      rw [List.mem_flatMap] at h
      obtain ⟨sc, hsc, hc⟩ := h
      have hb : countNl sc.content ≤ Chunker.MAX_LINES :=
        mem_sitgGo ch _ (fun hd hhd => extract_header_no_nl ch.content hd hhd) _ _ sc hsc
      by_cases h3 : Chunker.MAX_CHARS < sc.content.length
      · rw [if_pos h3] at hc
        have hr := mem_charSplitGo _ _ _ _ _ c hc
        refine ⟨?_, hr.1⟩
        have := linesCount_le_countNl_add_one c.content
        have := hr.2
        omega
      · rw [if_neg h3] at hc
        simp at hc
        subst hc
        have := linesCount_le_countNl_add_one c.content
        exact ⟨by omega, by omega⟩

/-! ## Claim C1: chunk size bounds -/

set_option maxRecDepth 2000000

/-- **C1, counterexample.** The claim says every chunk returned by
`Chunker::chunk` satisfies `content.lines().count() ≤ MAX_LINES` and
`content.len() ≤ MAX_CHARS`. It is false: for the 140-line
single-definition file `bigContent`, the second line window of the
secondary split is prefixed with the header line
(`src/chunker/mod.rs:366-373`) and ends up with 76 lines. -/
theorem c1_counterexample :
    ¬ (∀ (parsed : Option (List Chunk)) (content path : Str),
        ∀ c ∈ Chunker.chunk parsed content path,
          linesCount c.content ≤ Chunker.MAX_LINES ∧
            c.content.length ≤ Chunker.MAX_CHARS) := by
  intro h
  have hx := h (some [bigDefChunk]) bigContent examplePath
    ((Chunker.chunk (some [bigDefChunk]) bigContent examplePath).get ⟨1, by decide⟩)
    (List.get_mem ..)
  revert hx
  decide

/-- **C1, amended.** Every chunk returned by `Chunker::chunk` satisfies
`content.len() ≤ MAX_CHARS`, and its line count is at most
`MAX_LINES + 1 = 76`: the header line prefixed to non-head sub-chunks of
non-`Block` chunks can push a full `MAX_LINES` window one line over, and no
path of the splitter produces more. -/
theorem c1_amended (parsed : Option (List Chunk)) (content path : Str)
    (c : Chunk) (hc : c ∈ Chunker.chunk parsed content path) :
    linesCount c.content ≤ Chunker.MAX_LINES + 1 ∧
      c.content.length ≤ Chunker.MAX_CHARS := by
  unfold Chunker.chunk at hc
  rw [List.mem_flatMap] at hc
  obtain ⟨ch, _, hc⟩ := hc
  exact mem_split_if_too_big ch c hc

/-- Witness for `c1_amended`: the single chunk of the one-line file `a`. -/
theorem c1_witness :
    linesCount (Chunk.new ['a'] 0 1 ChunkType.Block
        [Chunker.fileCrumb examplePath]).content ≤ Chunker.MAX_LINES + 1 ∧
      (Chunk.new ['a'] 0 1 ChunkType.Block
        [Chunker.fileCrumb examplePath]).content.length ≤ Chunker.MAX_CHARS :=
  c1_amended none ['a'] examplePath _ (by decide)

/-! ## Claim C6: ordering of the chunk sequence -/

/-- **C6, counterexample.** The claim says the sequence returned by
`Chunker::chunk` is non-decreasing in `(start_line, end_line)`. It is
false once the secondary split applies to a chunk that precedes a nested
definition chunk: for the 201-line class of `nestedContent` with its method
at rows 5–74 (syntax mode emits the sorted pair `[classChunk, methodChunk]`),
the class's line windows reach `(195, 201)` and the method chunk `(5, 74)`
follows them. -/
theorem c6_counterexample :
    ¬ (∀ (parsed : Option (List Chunk)) (content path : Str),
        List.Sorted Chunker.chunkLe (Chunker.chunk parsed content path)) := by
  intro h
  have hx := h (some [classChunk, methodChunk]) nestedContent examplePath
  revert hx
  decide

/-- **C6, amended.** The primary syntax-mode sequence is non-decreasing in
`(start_line, end_line)` — `chunk_with_tree_sitter` sorts the combined
block and definition chunks by exactly that key
(`src/chunker/mod.rs:169-175`) — but the secondary split can break the
order of the final sequence returned by `Chunker::chunk`. -/
theorem c6_amended (block_chunks chunks : List Chunk) :
    List.Sorted Chunker.chunkLe
      (Chunker.chunk_with_tree_sitter_order block_chunks chunks) :=
  List.sorted_insertionSort Chunker.chunkLe _

/-! ## Claim C2: the 10 000-line file with no definitions -/

theorem stride_eq : max (Chunker.MAX_LINES - Chunker.OVERLAP_LINES) 1 = 65 := rfl

theorem replicate_line_ne_nil (k : Nat) (hk : 1 ≤ k) :
    List.replicate k (['x'] : Str) ≠ [] := by
  intro hcon
  have := congrArg List.length hcon
  simp at this
  omega

theorem replicate_line_no_nl :
    ∀ seg ∈ List.replicate 10000 (['x'] : Str), '\n' ∉ seg := by
  intro seg hseg
  rw [List.eq_of_mem_replicate hseg]
  simp

theorem splitNl_join_replicate (k : Nat) (hk : 1 ≤ k) :
    splitNl (joinNl (List.replicate k (['x'] : Str))) = List.replicate k ['x'] := by
  refine splitNl_joinNl _ (replicate_line_ne_nil k hk) ?_
  intro seg hseg
  rw [List.eq_of_mem_replicate hseg]
  simp

theorem getLast?_replicate_line (k : Nat) (hk : 1 ≤ k) :
    (List.replicate k (['x'] : Str)).getLast? = some ['x'] := by
  cases k with
  | zero => omega
  | succ k0 => rw [List.replicate_succ', List.getLast?_concat]

theorem rustLines_join_replicate (k : Nat) (hk : 1 ≤ k) :
    rustLines (joinNl (List.replicate k (['x'] : Str))) = List.replicate k ['x'] := by
  refine rustLines_joinNl _ (replicate_line_ne_nil k hk) ?_ ?_
  · intro seg hseg
    rw [List.eq_of_mem_replicate hseg]
    simp
  · rw [getLast?_replicate_line k hk]
    simp

theorem relOff_replicate_line (k j : Nat) :
    relOff (List.replicate k (['x'] : Str)) j = 2 * min j k := by
  unfold relOff
  rw [List.take_replicate, List.map_replicate, List.sum_replicate]
  simp [Nat.smul_one_eq_cast]
  omega

theorem length_join_replicate (k : Nat) (hk : 1 ≤ k) :
    (joinNl (List.replicate k (['x'] : Str))).length = 2 * k - 1 := by
  rw [length_joinNl _ (replicate_line_ne_nil k hk), List.length_replicate,
    relOff_replicate_line]
  omega

theorem linesCount_join_replicate (k : Nat) (hk : 1 ≤ k) :
    linesCount (joinNl (List.replicate k (['x'] : Str))) = k := by
  unfold linesCount
  rw [rustLines_join_replicate k hk, List.length_replicate]

theorem gen_lines : rustLines genContent = List.replicate 10000 (['x'] : Str) :=
  rustLines_join_replicate 10000 (by omega)

theorem gen_num_lines : (rustLines genContent).length = 10000 := by
  rw [gen_lines, List.length_replicate]

theorem gen_splitNl_length : (splitNl genContent).length = 10000 := by
  unfold genContent
  rw [splitNl_join_replicate 10000 (by omega), List.length_replicate]

theorem gen_window_content (i : Nat) (hi : i < 10000) :
    sliceStr genContent
      (Chunker.line_range_to_byte_range genContent i
        (min (i + Chunker.MAX_LINES) 10000)).1
      (Chunker.line_range_to_byte_range genContent i
        (min (i + Chunker.MAX_LINES) 10000)).2 =
      joinNl (List.replicate (min (i + Chunker.MAX_LINES) 10000 - i) ['x']) := by
  have hie : i < min (i + Chunker.MAX_LINES) 10000 := by
    unfold Chunker.MAX_LINES
    omega
  have hee : min (i + Chunker.MAX_LINES) 10000 ≤ (splitNl genContent).length := by
    rw [gen_splitNl_length]
    exact min_le_right _ _
  rw [line_range_correct genContent i (min (i + Chunker.MAX_LINES) 10000) hie hee]
  rw [sliceStr_window genContent i (min (i + Chunker.MAX_LINES) 10000) hie hee]
  unfold genContent
  rw [splitNl_join_replicate 10000 (by omega), List.drop_replicate, List.take_replicate]
  have harg : min (min (i + Chunker.MAX_LINES) 10000 - i) (10000 - i) =
      min (i + Chunker.MAX_LINES) 10000 - i := by
    unfold Chunker.MAX_LINES
    omega
  rw [harg]

theorem gen_window_fits (i : Nat) (hi : i < 10000) :
    (sliceStr genContent
      (Chunker.line_range_to_byte_range genContent i
        (min (i + Chunker.MAX_LINES) 10000)).1
      (Chunker.line_range_to_byte_range genContent i
        (min (i + Chunker.MAX_LINES) 10000)).2).length ≤ Chunker.MAX_CHARS := by
  rw [gen_window_content i hi, length_join_replicate _ (by unfold Chunker.MAX_LINES; omega)]
  unfold Chunker.MAX_LINES Chunker.MAX_CHARS
  omega

theorem gen_go_length :
    ∀ (fuel i : Nat), 10000 ≤ i + fuel →
      (Chunker.simpleChunkGo genContent 10000 [Chunker.fileCrumb examplePath] fuel i).length =
        (if i < 10000 then (10000 - i + 64) / 65 else 0) := by
  intro fuel
  induction fuel with
  | zero =>
    intro i hfuel
    rw [if_neg (by omega)]
    rfl
  | succ f ih =>
    intro i hfuel
    simp only [Chunker.simpleChunkGo]
    by_cases h0 : i < 10000
    · rw [if_pos h0, if_pos h0, if_pos (gen_window_fits i h0), stride_eq]
      rw [List.length_append, List.length_singleton, ih (i + 65) (by omega)]
      by_cases h1 : i + 65 < 10000
      · rw [if_pos h1]
        omega
      · rw [if_neg h1]
        omega
    · rw [if_neg h0, if_neg h0]
      rfl

theorem gen_go_mem :
    ∀ (fuel i : Nat) (c : Chunk),
      c ∈ Chunker.simpleChunkGo genContent 10000 [Chunker.fileCrumb examplePath] fuel i →
      ∃ j, j < 10000 ∧
        c = Chunk.new
          (joinNl (List.replicate (min (j + Chunker.MAX_LINES) 10000 - j) ['x']))
          j (min (j + Chunker.MAX_LINES) 10000) ChunkType.Block
          [Chunker.fileCrumb examplePath] := by
  intro fuel
  induction fuel with
  | zero =>
    intro i c h
    simp [Chunker.simpleChunkGo] at h
  | succ f ih =>
    intro i c h
    simp only [Chunker.simpleChunkGo] at h
    by_cases h0 : i < 10000
    · rw [if_pos h0, if_pos (gen_window_fits i h0)] at h
      rcases List.mem_append.mp h with hc | hc
      · rw [List.mem_singleton] at hc
        refine ⟨i, h0, ?_⟩
        rw [hc, gen_window_content i h0]
      · exact ih _ c hc
    · rw [if_neg h0] at h
      simp at h

theorem gen_simple_chunk_length :
    (Chunker.simple_chunk genContent examplePath).length = 154 := by
  unfold Chunker.simple_chunk
  rw [gen_num_lines, gen_go_length 10001 0 (by omega), if_pos (by omega)]

theorem gen_chunk_fits (c : Chunk)
    (hc : c ∈ Chunker.simple_chunk genContent examplePath) :
    linesCount c.content ≤ Chunker.MAX_LINES ∧
      c.content.length ≤ Chunker.MAX_CHARS := by
  unfold Chunker.simple_chunk at hc
  rw [gen_num_lines] at hc
  obtain ⟨j, hj, hcj⟩ := gen_go_mem _ _ c hc
  have hk1 : 1 ≤ min (j + Chunker.MAX_LINES) 10000 - j := by
    unfold Chunker.MAX_LINES
    omega
  subst hcj
  constructor
  · show linesCount (joinNl (List.replicate _ ['x'])) ≤ Chunker.MAX_LINES
    rw [linesCount_join_replicate _ hk1]
    unfold Chunker.MAX_LINES
    omega
  · show (joinNl (List.replicate _ (['x'] : Str))).length ≤ Chunker.MAX_CHARS
    rw [length_join_replicate _ hk1]
    unfold Chunker.MAX_LINES Chunker.MAX_CHARS
    omega

theorem flatMap_split_id (l : List Chunk)
    (h : ∀ c ∈ l, Chunker.split_if_too_big c = [c]) :
    l.flatMap Chunker.split_if_too_big = l := by
  induction l with
  | nil => rfl
  | cons a t ih =>
    rw [List.flatMap_cons, h a (List.mem_cons_self ..),
      ih (fun c hc => h c (List.mem_cons_of_mem _ hc))]
    rfl

theorem split_id_of_fits (c : Chunk)
    (h1 : linesCount c.content ≤ Chunker.MAX_LINES)
    (h2 : c.content.length ≤ Chunker.MAX_CHARS) :
    Chunker.split_if_too_big c = [c] := by
  simp only [Chunker.split_if_too_big]
  rw [if_pos ⟨h1, h2⟩]

theorem chunk_none (content path : Str) :
    Chunker.chunk none content path =
      (Chunker.simple_chunk content path).flatMap Chunker.split_if_too_big := rfl

/-- **C2, counterexample.** The claim says that on a 10 000-line file with
no definitions, syntax mode yields zero chunks and the fallback produces
the sliding-window chunks, i.e. `Chunker::chunk` returns exactly them. It
is false: when syntax mode runs and finds no definitions it returns
`Ok(Some(Vec::new()))` (`src/chunker/mod.rs:165-167`), and `Chunker::chunk`
only falls back on `None` (`src/chunker/mod.rs:480`), so it returns zero
chunks, not the 154 fallback chunks. -/
theorem c2_counterexample :
    Chunker.chunk (some []) genContent examplePath = [] ∧
      Chunker.chunk (some []) genContent examplePath ≠
        Chunker.simple_chunk genContent examplePath := by
  refine ⟨rfl, ?_⟩
  intro hcon
  have h1 := gen_simple_chunk_length
  rw [← hcon] at h1
  have h0 : (Chunker.chunk (some []) genContent examplePath).length = 0 := rfl
  omega

/-- **C2, amended.** On the 10 000-line generated file with no definitions:
when syntax mode runs it yields zero chunks and `Chunker::chunk` returns
zero chunks (no fallback occurs); when no grammar is available for the path
the fallback runs, and `Chunker::chunk` returns exactly its sliding-window
chunks — `⌈(10000 − OVERLAP_LINES)/STRIDE_LINES⌉ = 154` of them, each
within `MAX_LINES` lines and `MAX_CHARS` characters. -/
theorem c2_amended :
    Chunker.chunk (some []) genContent examplePath = [] ∧
      Chunker.chunk none genContent examplePath =
        Chunker.simple_chunk genContent examplePath ∧
      (Chunker.simple_chunk genContent examplePath).length =
        (10000 - Chunker.OVERLAP_LINES + (Chunker.STRIDE_LINES - 1)) /
          Chunker.STRIDE_LINES ∧
      ∀ c ∈ Chunker.simple_chunk genContent examplePath,
        linesCount c.content ≤ Chunker.MAX_LINES ∧
          c.content.length ≤ Chunker.MAX_CHARS := by
  refine ⟨rfl, ?_, ?_, fun c hc => gen_chunk_fits c hc⟩
  · rw [chunk_none]
    refine flatMap_split_id _ fun c hc => ?_
    have hf := gen_chunk_fits c hc
    exact split_id_of_fits c hf.1 hf.2
  · rw [gen_simple_chunk_length]
    rfl

/-! ## Claim C3: grammar manager failure behaviour -/

/-- **C3, counterexample.** The claim: (a) missing grammar with
auto-download disabled yields none; (b) a non-2xx download status yields
the error `GrammarUnavailable`; (c) a corrupted on-disk blob is deleted and
re-downloaded once. Parts (b) and (c) are false: `get_language` logs a
failed download and returns `Ok(None)` (`src/grammar/mod.rs:241-244`), and
a corrupted blob's load error propagates immediately with no delete and no
re-download (`src/grammar/mod.rs:247`); `SmgrepError` has no
`GrammarUnavailable` variant at all (`src/error.rs`). -/
theorem c3_counterexample :
    ¬ (∀ env : GrammarManager.GrammarEnv,
        (env.cached = false → env.available = false → env.auto_download = false →
          (GrammarManager.get_language env).1 = .ok none) ∧
        (env.cached = false → env.available = false → env.auto_download = true →
          env.has_url = true → env.downloading = false → env.request_ok = true →
          env.http_ok = false →
          ∃ e, (GrammarManager.get_language env).1 = .error e) ∧
        (env.cached = false → env.available = true → env.load_ok = false →
          (GrammarManager.get_language env).2.deletes = 1 ∧
            (GrammarManager.get_language env).2.downloads = 1)) := by
  intro h
  obtain ⟨e, he⟩ := (h GrammarManager.envHttp404).2.1 rfl rfl rfl rfl rfl rfl rfl
  have hok : (GrammarManager.get_language GrammarManager.envHttp404).1 = .ok none :=
    rfl
  rw [hok] at he
  simp at he

/-- **C3, amended.** `get_language` returns none when the grammar is
missing and auto-download is disabled; when the download receives a non-2xx
HTTP status it logs a warning and returns none (no error is surfaced, and
the error enum has no `GrammarUnavailable` variant); on a corrupted on-disk
blob it returns the load error (`SmgrepError::Chunker`) immediately,
performing no deletion and no re-download. -/
theorem c3_amended (env : GrammarManager.GrammarEnv) :
    (env.cached = false → env.available = false → env.auto_download = false →
      GrammarManager.get_language env = (.ok none, ⟨0, 0⟩)) ∧
    (env.cached = false → env.available = false → env.auto_download = true →
      env.has_url = true → env.downloading = false → env.request_ok = true →
      env.http_ok = false →
      GrammarManager.get_language env = (.ok none, ⟨1, 0⟩)) ∧
    (env.cached = false → env.available = true → env.load_ok = false →
      GrammarManager.get_language env =
        (.error (.Chunker ("failed to load language ").data), ⟨0, 0⟩)) := by
  refine ⟨?_, ?_, ?_⟩
  · intro h1 h2 h3
    simp [GrammarManager.get_language, h1, h2, h3]
  · intro h1 h2 h3 h4 h5 h6 h7
    simp [GrammarManager.get_language, GrammarManager.download_grammar_sync,
      GrammarManager.load_language_from_file, h1, h2, h3, h4, h5, h6, h7]
  · intro h1 h2 h3
    simp [GrammarManager.get_language, GrammarManager.load_language_from_file,
      h1, h2, h3]

/-- Witness for `c3_amended` at the three concrete environments. -/
theorem c3_witness :
    GrammarManager.get_language envNoAuto = (.ok none, ⟨0, 0⟩) ∧
      GrammarManager.get_language GrammarManager.envHttp404 = (.ok none, ⟨1, 0⟩) ∧
      GrammarManager.get_language GrammarManager.envCorrupt =
        (.error (.Chunker ("failed to load language ").data), ⟨0, 0⟩) :=
  ⟨(c3_amended envNoAuto).1 rfl rfl rfl,
   (c3_amended GrammarManager.envHttp404).2.1 rfl rfl rfl rfl rfl rfl rfl,
   (c3_amended GrammarManager.envCorrupt).2.2 rfl rfl rfl⟩

/-! ## Claim C4: the version handshake -/

/-- **C4.** The spec requires the daemon to answer a first `Hello` message
with `Hello` carrying its own build id, and the repo's own client
(`src/cmd/daemon.rs:90-100`) sends `Hello` first and requires that reply.
But the live request dispatch (`handle_client`,
`src/commands/serve.rs:233-250`) has no `Hello` arm at all — it only
handles Search, Health and Shutdown — so a `Hello` first message is never
answered with a `Hello` response. -/
theorem c4_no_hello_arm (embedResult : Except Str Unit)
    (storeResult : Except Str (List SearchResult)) (indexing : Bool)
    (progress : Nat) (b : Str) :
    handle_request embedResult storeResult indexing progress (.Hello b) =
        .no_arm ∧
      ∀ own, handle_request embedResult storeResult indexing progress (.Hello b) ≠
        .reply (.Hello own) := by
  refine ⟨rfl, fun own h => ?_⟩
  simp [handle_request] at h

/-! ## Claim C9: shutdown behaviour -/

/-- **C9, counterexample.** The claim: whenever shutdown is initiated —
explicit `Shutdown` request or idle timeout — the daemon refuses new
connections, waits for in-flight requests, and unlinks its socket before
exit. It is false: an explicit `Shutdown` calls `std::process::exit(0)`
right after replying (`src/commands/serve.rs:244-249`), with no drain and
no socket unlink; and the idle path never waits for in-flight requests. -/
theorem c9_counterexample :
    ¬ (∀ t : ShutdownTrigger,
        (daemon_shutdown t).refused_new_connections = true ∧
          (daemon_shutdown t).waited_for_inflight = true ∧
          (daemon_shutdown t).socket_unlinked = true) := by
  intro h
  have hx := (h .explicit_request).1
  simp [daemon_shutdown] at hx

/-- **C9, amended.** On an explicit `Shutdown` request the daemon replies
`Shutdown { success: true }` and exits the process immediately — no drain,
socket left in place; on idle timeout it stops accepting and unlinks the
socket before exit, but does not wait for in-flight requests. -/
theorem c9_amended :
    daemon_shutdown .explicit_request =
        { refused_new_connections := false
          waited_for_inflight := false
          socket_unlinked := false
          exited := true } ∧
      daemon_shutdown .idle_timeout =
        { refused_new_connections := true
          waited_for_inflight := false
          socket_unlinked := true
          exited := true } ∧
      ∀ (embedResult : Except Str Unit)
        (storeResult : Except Str (List SearchResult)) (indexing : Bool)
        (progress : Nat),
        handle_request embedResult storeResult indexing progress .Shutdown =
          .exit_process (.Shutdown true) :=
  ⟨rfl, rfl, fun _ _ _ _ => rfl⟩

/-! ## Claim C10: empty search query -/

/-- **C10.** A `Search` request with an empty query string is answered with
`Error { message: "query is required" }` before the embedder or the store
is invoked (`src/commands/serve.rs:266-268`), and the request loop simply
continues (the step is a `reply`, not a process exit), so the connection
and the daemon remain up. -/
theorem c10_empty_query (embedResult : Except Str Unit)
    (storeResult : Except Str (List SearchResult)) (indexing : Bool)
    (progress limit : Nat) (path : Option Str) (rerank : Bool) :
    handle_search embedResult storeResult indexing progress [] =
        (.Error ("query is required").data, ⟨0, 0⟩) ∧
      handle_request embedResult storeResult indexing progress
        (.Search [] limit path rerank) =
        .reply (.Error ("query is required").data) :=
  ⟨rfl, rfl⟩

/-! ## Claims C5 and C7: manifest/store coherence and the hash gate -/

/-- **C5.** If `process_file` succeeds for file `p` with content `c` and
performed an insert (`n > 0`), then the manifest maps `p` to the content
hash and every store record under path `p` carries that hash (the batch
replaces all previous records for the path); a subsequent watcher delete of
`p` leaves no record with path `p` and no manifest entry. The `hlen`
hypothesis is the embedder contract of spec §4.4: one embedding per input
text. -/
theorem c5_theorem (hashFn : Str → Str)
    (embedFn : List Str → Except Str (List HybridEmbedding))
    (chunkFn : Str → Str → List Chunk) (st : SyncState) (p c : Str)
    (st' : SyncState) (n : Nat)
    (hlen : ∀ texts embs, embedFn texts = .ok embs → embs.length = texts.length)
    (h : process_file hashFn embedFn chunkFn st p c = (.ok st', n)) (hn : 0 < n) :
    st'.manifest.get_hash p = some (hashFn c) ∧
      (∀ r ∈ st'.records, r.path = p → r.hash = hashFn c) ∧
      (watch_delete st' p).manifest.get_hash p = none ∧
      (∀ r ∈ (watch_delete st' p).records, r.path ≠ p) := by
  simp only [process_file] at h
  by_cases h1 : c = []
  · rw [if_pos h1] at h
    have hsnd := congrArg Prod.snd h
    simp at hsnd
    omega
  · rw [if_neg h1] at h
    by_cases h2 : st.manifest.get_hash p = some (hashFn c)
    · rw [if_pos h2] at h
      have hsnd := congrArg Prod.snd h
      simp at hsnd
      omega
    · rw [if_neg h2] at h
      by_cases h3 : chunkFn c p = []
      · rw [if_pos h3] at h
        have hsnd := congrArg Prod.snd h
        simp at hsnd
        omega
      · rw [if_neg h3] at h
        split at h
        · have hfst := congrArg Prod.fst h
          simp at hfst
        · rename_i embeddings heq
          have hfst := congrArg Prod.fst h
          simp only [Prod.fst] at hfst
          injection hfst with hst
          subst hst
          have hbatch : ∀ r ∈ (((chunkFn c p).enum.map fun ic =>
                ({ id := p ++ ':' :: natToStr ic.1, path := p, hash := hashFn c
                   content := ic.2.content, start_line := ic.2.start_line
                   end_line := ic.2.end_line, chunk_index := some ic.1
                   is_anchor := ic.2.is_anchor, chunk_type := ic.2.chunk_type
                   context_prev := ic.2.context.head?
                   context_next := ic.2.context.getLast? } : PreparedChunk)).zip
                  embeddings).map (fun pe =>
                ({ id := pe.1.id, path := pe.1.path, hash := pe.1.hash
                   content := pe.1.content, start_line := pe.1.start_line
                   end_line := pe.1.end_line, chunk_index := pe.1.chunk_index
                   is_anchor := pe.1.is_anchor, chunk_type := pe.1.chunk_type
                   context_prev := pe.1.context_prev
                   context_next := pe.1.context_next, vector := pe.2.dense
                   colbert := pe.2.colbert
                   colbert_scale := pe.2.colbert_scale } : VectorRecord)),
              r.path = p ∧ r.hash = hashFn c := by
            intro r hr
            obtain ⟨pe, hpe, hre⟩ := List.mem_map.mp hr
            obtain ⟨pc0, emb0⟩ := pe
            have hz := List.of_mem_zip hpe
            obtain ⟨ic, _, hg⟩ := List.mem_map.mp hz.1
            rw [← hre, ← hg]
            exact ⟨rfl, rfl⟩
          refine ⟨?_, ?_, ?_, ?_⟩
          · show Manifest.get_hash (Manifest.set_hash st.manifest p (hashFn c)) p =
              some (hashFn c)
            simp [Manifest.get_hash, Manifest.set_hash]
          · intro r hr hrp
            rcases List.mem_append.mp hr with hr | hr
            · exfalso
              have hmf := List.mem_filter.mp hr
              have hne : (((chunkFn c p).enum.map fun ic =>
                    ({ id := p ++ ':' :: natToStr ic.1, path := p, hash := hashFn c
                       content := ic.2.content, start_line := ic.2.start_line
                       end_line := ic.2.end_line, chunk_index := some ic.1
                       is_anchor := ic.2.is_anchor, chunk_type := ic.2.chunk_type
                       context_prev := ic.2.context.head?
                       context_next := ic.2.context.getLast? } : PreparedChunk)).zip
                      embeddings).map (fun pe =>
                    ({ id := pe.1.id, path := pe.1.path, hash := pe.1.hash
                       content := pe.1.content, start_line := pe.1.start_line
                       end_line := pe.1.end_line, chunk_index := pe.1.chunk_index
                       is_anchor := pe.1.is_anchor, chunk_type := pe.1.chunk_type
                       context_prev := pe.1.context_prev
                       context_next := pe.1.context_next, vector := pe.2.dense
                       colbert := pe.2.colbert
                       colbert_scale := pe.2.colbert_scale } : VectorRecord)) ≠ [] := by
                refine List.length_pos.mp ?_
                rw [List.length_map, List.length_zip, hlen _ _ heq]
                simp only [List.length_map, List.enum_length]
                have := List.length_pos.mpr h3
                omega
              obtain ⟨b0, hb0⟩ := List.exists_mem_of_ne_nil _ hne
              have hb0p := (hbatch b0 hb0).1
              have hall := List.all_eq_true.mp hmf.2 b0 hb0
              have : b0.path ≠ r.path := of_decide_eq_true hall
              exact this (hb0p.trans hrp.symm)
            · exact (hbatch r hr).2
          · show Manifest.get_hash (Manifest.remove _ p) p = none
            simp [Manifest.get_hash, Manifest.remove]
          · intro r hr
            have hmf := List.mem_filter.mp hr
            exact of_decide_eq_true hmf.2

/-- Witness for `c5_theorem`: one file `f` with content `x` indexed into an
empty store, then deleted. -/
theorem c5_witness :
    syncAfterW.manifest.get_hash pW = some (hashW cW) ∧
      (∀ r ∈ syncAfterW.records, r.path = pW → r.hash = hashW cW) ∧
      (watch_delete syncAfterW pW).manifest.get_hash pW = none ∧
      (∀ r ∈ (watch_delete syncAfterW pW).records, r.path ≠ pW) :=
  c5_theorem hashW embedW chunkW emptySync pW cW syncAfterW 1
    (fun texts embs h => by
      have h2 := Except.ok.inj h
      rw [← h2]
      simp)
    rfl (by omega)

/-- **C7.** If the manifest already maps `p` to the hash of `c`,
`process_file` returns success immediately: no `insert_batch` call, the
state unchanged; hence re-indexing a tree whose manifest matches every
file's hash performs zero `insert_batch` calls and leaves the state
unchanged. -/
theorem c7_theorem (hashFn : Str → Str)
    (embedFn : List Str → Except Str (List HybridEmbedding))
    (chunkFn : Str → Str → List Chunk) (st : SyncState) (p c : Str)
    (files : List (Str × Str))
    (hp : st.manifest.get_hash p = some (hashFn c))
    (hall : ∀ pc ∈ files, st.manifest.get_hash pc.1 = some (hashFn pc.2)) :
    process_file hashFn embedFn chunkFn st p c = (.ok st, 0) ∧
      initial_sync hashFn embedFn chunkFn st files = (st, 0) := by
  have hproc : ∀ q d, st.manifest.get_hash q = some (hashFn d) →
      process_file hashFn embedFn chunkFn st q d = (.ok st, 0) := by
    intro q d hq
    simp only [process_file]
    by_cases h1 : d = []
    · rw [if_pos h1]
    · rw [if_neg h1, if_pos hq]
  refine ⟨hproc p c hp, ?_⟩
  induction files with
  | nil => rfl
  | cons pc rest ih =>
    obtain ⟨q, d⟩ := pc
    simp only [initial_sync]
    rw [hproc q d (hall (q, d) (List.mem_cons_self ..))]
    rw [ih (fun x hx => hall x (List.mem_cons_of_mem _ hx))]
    rfl

/-- Witness for `c7_theorem`: a store whose manifest already holds the
witness file's hash. -/
theorem c7_witness :
    process_file hashW embedW chunkW syncFullW pW cW = (.ok syncFullW, 0) ∧
      initial_sync hashW embedW chunkW syncFullW [(pW, cW)] = (syncFullW, 0) :=
  c7_theorem hashW embedW chunkW syncFullW pW cW [(pW, cW)] rfl
    (fun pc hpc => by
      rw [List.mem_singleton] at hpc
      subst hpc
      rfl)

/-! ## Claim C8: search result limits and ordering -/

theorem per_file_go_count (k : Nat) :
    ∀ (l : List SearchResult) (counts : Str → Nat) (p : Str),
      ((per_file_go k counts l).countP fun r => decide (r.path = p)) ≤
        k - counts p := by
  intro l
  induction l with
  | nil =>
    intro counts p
    simp [per_file_go]
  | cons r rest ih =>
    intro counts p
    simp only [per_file_go]
    by_cases h1 : counts r.path < k
    · rw [if_pos h1, List.countP_cons]
      have hthis := ih (fun q => if q = r.path then counts q + 1 else counts q) p
      by_cases hrp : r.path = p
      · have hcp : (if p = r.path then counts p + 1 else counts p) =
            counts p + 1 := if_pos hrp.symm
        rw [hcp] at hthis
        have h1' : counts p < k := by
          rw [← hrp]
          exact h1
        split
        · omega
        · omega
      · have hcp : (if p = r.path then counts p + 1 else counts p) =
            counts p := if_neg (fun hc => hrp (Eq.symm hc))
        rw [hcp] at hthis
        split
        · rename_i hd
          exact absurd (of_decide_eq_true hd) hrp
        · omega
    · rw [if_neg h1]
      exact ih counts p

theorem per_file_go_sublist (k : Nat) :
    ∀ (l : List SearchResult) (counts : Str → Nat),
      List.Sublist (per_file_go k counts l) l := by
  intro l
  induction l with
  | nil =>
    intro counts
    simp [per_file_go]
  | cons r rest ih =>
    intro counts
    simp only [per_file_go]
    by_cases h1 : counts r.path < k
    · rw [if_pos h1]
      exact List.Sublist.cons₂ r (ih _)
    · rw [if_neg h1]
      exact List.Sublist.cons r (ih _)

/-- **C8.** For every store response, `SearchEngine::search` returns at
most `limit` results; with `per_file_limit = k > 0` no path appears more
than `k` times; and the returned sequence is sorted by descending
(boosted) score. -/
theorem c8_theorem (storeResults : List SearchResult) (limit k : Nat)
    (hk : 0 < k) :
    (SearchEngine.search storeResults limit k).length ≤ limit ∧
      (∀ p, ((SearchEngine.search storeResults limit k).countP
        fun r => decide (r.path = p)) ≤ k) ∧
      List.Sorted scoreGe (SearchEngine.search storeResults limit k) := by
  simp only [SearchEngine.search]
  rw [if_pos hk]
  refine ⟨List.length_take_le _ _, ?_, ?_⟩
  · intro p
    refine le_trans (List.Sublist.countP_le _ (List.take_sublist _ _)) ?_
    have hc := per_file_go_count k
      ((apply_structural_boost storeResults).insertionSort scoreGe) (fun _ => 0) p
    simpa [apply_per_file_limit] using hc
  · have hsorted : List.Sorted scoreGe
        ((apply_structural_boost storeResults).insertionSort scoreGe) :=
      List.sorted_insertionSort scoreGe _
    exact List.Pairwise.sublist
      ((List.take_sublist _ _).trans (per_file_go_sublist k _ _)) hsorted

/-- Witness for `c8_theorem`: two results sharing one path, `limit = 5`,
`per_file_limit = 1`. -/
theorem c8_witness :
    (SearchEngine.search resultsW 5 1).length ≤ 5 ∧
      (∀ p, ((SearchEngine.search resultsW 5 1).countP
        fun r => decide (r.path = p)) ≤ 1) ∧
      List.Sorted scoreGe (SearchEngine.search resultsW 5 1) :=
  c8_theorem resultsW 5 1 (by omega)
